import Mathlib

/-!
Verification of the Kaspeak SDK protocol core against its specification.

The development shallowly embeds the TypeScript sources:
  * `src/sdk/constants.ts`      — protocol constants
  * `src/crypto/utils.ts`       — hex/byte/int conversions, `powModW4`, `modInv` (Lehmer)
  * `src/models/payload.ts`     — the `Payload` codec and the signature preimage
  * `src/utils/limited-hash-set.ts` — the bounded FIFO dedup set
  * `src/sdk/kaspeak.ts`        — private-key intake and the ingestion prefilter
  * the message decode pipeline (`MessageSerializer.decode`)
  * `src/crypto/identifier.ts`  — identifier chain moves (`fromChainKey`, `next`, `prev`)

Byte strings are modelled as `List ℕ` (each entry a byte value, `< 256` where a
`Uint8Array` guarantees it), JavaScript strings as `List Char`, and JS `bigint`
as `ℕ` (all values reaching the embedded code are non-negative) or `ℤ` where the
source manipulates signed values (the extended-Euclid / Lehmer inverse).
Unbounded JS loops are embedded with an explicit fuel argument so that every
definition stays structurally recursive and kernel-computable; fuel exhaustion
maps to `none`, which a real (terminating) JS execution never produces, and the
theorems only consume terminating runs.

Definitions whose name matches the source keep the source behaviour exactly;
`...Claim`-suffixed definitions instead transcribe the specification's words and
exist only to be compared against the source-derived definition.  The `prefix`
field of `Payload` is called `pfx` here (the original name is unusable as a Lean
identifier in this development); it is the same 4-byte application-tag field.
-/

deriving instance DecidableEq for Except

/-! ## Constants (`src/sdk/constants.ts`, `src/crypto/secp256k1.ts`) -/

def HEADER_SIZE : ℕ := 143

def MARKER : List ℕ := [0x4b, 0x53, 0x50, 0x4b]

def PROTOCOL_VERSION : ℕ := 1

/-- secp256k1 group order `N` from `src/crypto/secp256k1.ts`. -/
def secpN : ℕ := 115792089237316195423570985008687907852837564279074904382605163141518161494337

/-! ## Hex and integer conversions (`src/crypto/utils.ts`)

`bytesToHex` uses the precomputed table `HEX[i] = i.toString(16).padStart(2, "0")`;
for a byte value `b < 256` this is the two lowercase hex digits of `b`.
`hexToInt` is `BigInt("0x" + hex)`; `bytesToInt` is `hexToInt ∘ bytesToHex`. -/

/-- One lowercase hexadecimal digit (`0`-`9`, `a`-`f`). -/
def hexDigitChar (n : ℕ) : Char := if n < 10 then Char.ofNat (48 + n) else Char.ofNat (87 + n)

/-- `HEX[b]` of the source: the 2-character lowercase hex of a byte. -/
def byteToHex (b : ℕ) : List Char := [hexDigitChar (b / 16), hexDigitChar (b % 16)]

def bytesToHex (bs : List ℕ) : List Char := bs.flatMap byteToHex

/-- Value of one hex digit as parsed by JS `BigInt("0x…")` (case-insensitive).
Non-digit characters never reach this function on the embedded code paths. -/
def hexCharVal (c : Char) : ℕ :=
  if 48 ≤ c.toNat ∧ c.toNat ≤ 57 then c.toNat - 48
  else if 97 ≤ c.toNat ∧ c.toNat ≤ 102 then c.toNat - 87
  else if 65 ≤ c.toNat ∧ c.toNat ≤ 70 then c.toNat - 55
  else 0

/-- `hexToInt(hex) = BigInt("0x" + hex)`. -/
def hexToInt (s : List Char) : ℕ := s.foldl (fun a c => 16 * a + hexCharVal c) 0

/-- `bytesToInt(bytes) = BigInt("0x" + bytesToHex(bytes))`. -/
def bytesToInt (bs : List ℕ) : ℕ := hexToInt (bytesToHex bs)

/-- Fuelled most-significant-digit-first base-16 digit expansion
(the recursion of JS `Number.prototype.toString(16)` for positive arguments). -/
def natHexAux : ℕ → ℕ → List Char
  | 0, _ => []
  | fuel + 1, n => if n = 0 then [] else natHexAux fuel (n / 16) ++ [hexDigitChar (n % 16)]

/-- JS `n.toString(16)` for a non-negative integer: lowercase, no leading zeros, `"0"` for zero. -/
def natHex (n : ℕ) : List Char := if n = 0 then [hexDigitChar 0] else natHexAux n n

/-- JS `String.prototype.padStart(len, c)`. -/
def padStart (len : ℕ) (c : Char) (s : List Char) : List Char :=
  List.replicate (len - s.length) c ++ s

/-! ## 16-bit little-endian field codec (`readU16` / `writeU16` in `payload.ts`)

`writeU16` stores `val` through `DataView.setUint16(0, val, true)`, which keeps
the low 16 bits and emits them little-endian; `readU16` reassembles them. -/

def writeU16 (v : ℕ) : List ℕ := [v % 256, v / 256 % 256]

def readU16 (bs : List ℕ) (off : ℕ) : ℕ := bs.getD off 0 + 256 * bs.getD (off + 1) 0

/-! ## The Payload record (`src/models/payload.ts`) -/

structure Payload where
  marker : List ℕ
  version : ℕ
  /-- the 4-byte application-tag field (named `prefix` in the source) -/
  pfx : List ℕ
  type : ℕ
  id : List ℕ
  publicKey : List ℕ
  signature : List ℕ
  data : List ℕ
deriving DecidableEq

/-- The `Payload` constructor.  It validates the 16-bit range of `type` and
the public-key length, then fills `marker`/`version` from the protocol
constants and zeroes the 64-byte signature.  The identifier argument is
represented by its 33-byte encoding (`identifier.bytes` in the source). -/
def Payload.new (pfx : List ℕ) (ty : ℕ) (idb : List ℕ) (publicKey : List ℕ)
    (data : List ℕ) : Except String Payload :=
  if 65535 < ty then .error "Type is out of 16-bit range"
  else if publicKey.length ≠ 33 then .error "publicKey must be 33 bytes"
  else .ok { marker := MARKER, version := PROTOCOL_VERSION, pfx := pfx, type := ty,
             id := idb, publicKey := publicKey, signature := List.replicate 64 0,
             data := data }

/-- `Payload.fromBytes`.  Faithful to the source's check order: total length,
marker, version, the 33-byte length check of `Identifier.fromBytes`, the
`data.length !== dataLen` check, then the constructor's own `type`-range and
`publicKey`-length checks (which cannot fire on this path).  The parsed
signature overwrites the constructor's zero signature. -/
def Payload.fromBytes (bs : List ℕ) : Except String Payload :=
  if bs.length < HEADER_SIZE then .error "Invalid payload size"
  else if bs.take 4 ≠ MARKER then .error "Bad marker"
  else if bs.getD 4 0 ≠ PROTOCOL_VERSION then .error "Bad version"
  else
    let pf := (bs.drop 5).take 4
    let ty := readU16 bs 9
    let idb := (bs.drop 11).take 33
    if idb.length ≠ 33 then .error "Invalid Identifier length"
    else
      let publicKey := (bs.drop 44).take 33
      let signature := (bs.drop 77).take 64
      let dataLen := readU16 bs 141
      let data := (bs.drop 143).take dataLen
      if data.length ≠ dataLen then .error "Data length mismatch"
      else if 65535 < ty then .error "Type is out of 16-bit range"
      else if publicKey.length ≠ 33 then .error "publicKey must be 33 bytes"
      else .ok { marker := MARKER, version := PROTOCOL_VERSION, pfx := pf, type := ty,
                 id := idb, publicKey := publicKey, signature := signature, data := data }

/-- `TypedArray.set(src, off)` on a byte buffer: overwrite `src.length` entries
starting at `off`. -/
def listSet (out : List ℕ) (off : ℕ) (src : List ℕ) : List ℕ :=
  out.take off ++ src ++ out.drop (off + src.length)

/-- `Payload.toBytes`: allocate `HEADER_SIZE + data.length` zero bytes and write
every field at its fixed offset.  The single-index store of `version` and the
`dataLen` store truncate to the element width exactly as a `Uint8Array` store
and `setUint16` do (`% 256`, `% 65536`). -/
def Payload.toBytes (p : Payload) : List ℕ :=
  let out0 := List.replicate (HEADER_SIZE + p.data.length) 0
  let out1 := listSet out0 0 p.marker
  let out2 := listSet out1 4 [p.version % 256]
  let out3 := listSet out2 5 p.pfx
  let out4 := listSet out3 9 (writeU16 p.type)
  let out5 := listSet out4 11 p.id
  let out6 := listSet out5 44 p.publicKey
  let out7 := listSet out6 77 p.signature
  let out8 := listSet out7 141 (writeU16 (p.data.length % 65536))
  listSet out8 143 p.data

/-- `Payload.buildMessage`: the canonical signature preimage.  Hex of each field
in order, with `version` rendered through `toString(16).padStart(2, "0")` and
`type` through `toString(16).padStart(4, "0")`; the signature is not included. -/
def Payload.buildMessage (p : Payload) (outIds : List Char) : List Char :=
  bytesToHex p.marker ++
  padStart 2 (hexDigitChar 0) (natHex p.version) ++
  bytesToHex p.pfx ++
  padStart 4 (hexDigitChar 0) (natHex p.type) ++
  bytesToHex p.id ++
  bytesToHex p.publicKey ++
  bytesToHex p.data ++
  outIds

/-- The preimage as the claim words it: lowercase hex of
`marker(4) ‖ version(1) ‖ prefix(4) ‖ type(2, little-endian) ‖ id(33) ‖
publicKey(33) ‖ data ‖ outpointIds`, signature excluded.  Spec-side definition,
to be compared with `Payload.buildMessage`. -/
def Payload.buildMessageClaim (p : Payload) (outIds : List Char) : List Char :=
  bytesToHex p.marker ++
  bytesToHex [p.version] ++
  bytesToHex p.pfx ++
  bytesToHex (writeU16 p.type) ++
  bytesToHex p.id ++
  bytesToHex p.publicKey ++
  bytesToHex p.data ++
  outIds

/-- `Payload.getPrefix`: decode the 4 tag bytes and delete every NUL
(`.replace(/\0/g, "")` has the global flag, so interior NULs are removed too).
Modelled at the byte level; the tag bytes are ASCII on all embedded paths. -/
def Payload.getPfx (p : Payload) : List ℕ := p.pfx.filter (fun b => b != 0)

/-- Trailing-zero trimming, as the specification words the prefix extraction. -/
def trimTrailingZeros (l : List ℕ) : List ℕ :=
  (l.reverse.dropWhile (fun b => b == 0)).reverse

/-- Prefix extraction as the claim words it: trim only the trailing NUL bytes.
Spec-side definition, to be compared with `Payload.getPfx`. -/
def Payload.getPfxClaim (p : Payload) : List ℕ := trimTrailingZeros p.pfx

/-! ## Bounded dedup set (`src/utils/limited-hash-set.ts`)

The source pairs a FIFO array `queue` with a JS `Set` mirroring its elements
(`Set` iteration order is insertion order, and the evicted element is always
the queue head, so the mirror list stays equal to the queue).  Both components
are embedded; `tryAdd` takes the capacity as an argument, the session façade
fixes it to 5000 (`knownTxIds` in `src/sdk/kaspeak.ts`). -/

structure LimitedHashSet (T : Type) where
  queue : List T
  set : List T
deriving DecidableEq

def LimitedHashSet.empty {T : Type} : LimitedHashSet T := ⟨[], []⟩

/-- JS `Set.prototype.add`: append if absent. -/
def jsSetAdd {T : Type} [DecidableEq T] (s : List T) (v : T) : List T :=
  if v ∈ s then s else s ++ [v]

/-- `tryAdd(value)`: refuse if present; otherwise evict the oldest element when
the queue is at capacity, then append. -/
def LimitedHashSet.tryAdd {T : Type} [DecidableEq T] [Inhabited T]
    (s : LimitedHashSet T) (cap : ℕ) (v : T) : Bool × LimitedHashSet T :=
  if v ∈ s.set then (false, s)
  else
    let s2 := if s.queue.length = cap then
        ({ queue := s.queue.tail, set := s.set.erase s.queue.headI } : LimitedHashSet T)
      else s
    (true, { queue := s2.queue ++ [v], set := jsSetAdd s2.set v })

def LimitedHashSet.has {T : Type} [DecidableEq T] (s : LimitedHashSet T) (v : T) : Bool :=
  decide (v ∈ s.set)

/-- Feed a stream of ids through `tryAdd`, starting from the empty set. -/
def LimitedHashSet.insertAll {T : Type} [DecidableEq T] [Inhabited T]
    (cap : ℕ) (ids : List T) : LimitedHashSet T :=
  ids.foldl (fun st v => (st.tryAdd cap v).2) LimitedHashSet.empty

/-- Capacity of the session façade's `knownTxIds` dedup set (`src/sdk/kaspeak.ts`). -/
def knownTxIdsCapacity : ℕ := 5000

/-! ## Message decode pipeline (`MessageSerializer.decode`)

The registry instance, the AEAD, Zstd and CBOR libraries are external to the
control flow under verification; they enter as the outcome fields of
`DecodeEnv`.  `openResult` is the outcome of the nonce/ciphertext slicing plus
`aead.open` (`Except.error` models a thrown exception, `some`/`none` the open
result); `decompress`, `cbor` and `hydrate` are the stage functions, with
`Except.error` modelling a throw.  The function returns `Except.error` exactly
where the source `throw`s before entering the pipeline (encryption required but
no key), and `Except.ok` with either an `UnknownMessage`-like value or the
hydrated object otherwise. -/

inductive DecodeResult (Obj : Type) where
  | unknown (raw : List ℕ) (code : ℕ)
  | hydrated (obj : Obj)
deriving DecidableEq

structure DecodeEnv (Obj : Type) where
  requiresEncryption : Bool
  openResult : Except String (Option (List ℕ))
  decompress : List ℕ → Except String (List ℕ)
  cbor : List ℕ → Except String Obj
  hydrate : Obj → Except String Unit

def MessageSerializer.decode {Obj : Type} (env : DecodeEnv Obj) (data : List ℕ)
    (hasKey : Bool) : Except String (DecodeResult Obj) :=
  if env.requiresEncryption && !hasKey then
    .error "Encryption key is required but not provided"
  else
    let phase1 : Except (DecodeResult Obj) (List ℕ) :=
      if env.requiresEncryption && hasKey then
        match env.openResult with
        | .error _ => .error (.unknown data 2)
        | .ok none => .error (.unknown data 0)
        | .ok (some pt) => if pt.length = 0 then .error (.unknown data 1) else .ok pt
      else .ok data
    match phase1 with
    | .error u => .ok u
    | .ok plaintext =>
      match env.decompress plaintext with
      | .error _ => .ok (.unknown data 3)
      | .ok decompressed =>
        match env.cbor decompressed with
        | .error _ => .ok (.unknown data 4)
        | .ok obj =>
          match env.hydrate obj with
          | .error _ => .ok (.unknown data 5)
          | .ok _ => .ok (.hydrated obj)

/-- The decode outcome as the claim words it: an `UnknownMessage` whose code is
0 when AEAD open returns no plaintext, 1 when it returns empty plaintext, 2
when decryption throws, 3 when decompression fails, 4 when CBOR decoding
fails, 5 when hydration fails; the hydrated instance on full success.
Spec-side definition, to be compared with `MessageSerializer.decode`. -/
def decodeClaim {Obj : Type} (env : DecodeEnv Obj) (data : List ℕ)
    (hasKey : Bool) : DecodeResult Obj :=
  let afterDecrypt : Except (DecodeResult Obj) (List ℕ) :=
    if env.requiresEncryption && hasKey then
      match env.openResult with
      | .error _ => .error (.unknown data 2)
      | .ok none => .error (.unknown data 0)
      | .ok (some pt) => if pt.length = 0 then .error (.unknown data 1) else .ok pt
    else .ok data
  match afterDecrypt with
  | .error u => u
  | .ok plaintext =>
    match env.decompress plaintext with
    | .error _ => .unknown data 3
    | .ok decompressed =>
      match env.cbor decompressed with
      | .error _ => .unknown data 4
      | .ok obj =>
        match env.hydrate obj with
        | .error _ => .unknown data 5
        | .ok _ => .hydrated obj

/-! ## Session façade fragments (`src/sdk/kaspeak.ts`) -/

/-- The accepted forms of the `privateKey` argument of `Kaspeak.create`. -/
inductive PrivKeyInput where
  | hexStr (s : List Char)
  | num (n : ℕ)
  | bytes (bs : List ℕ)
  | big (n : ℕ)

/-- The private-key scalar stored by `Kaspeak.create`: `hexToInt` for strings,
`BigInt(n)` for numbers, `bytesToInt` for byte arrays, the value itself for
bigints.  No further processing is applied before the scalar is stored. -/
def Kaspeak.storedPrivateKey : PrivKeyInput → ℕ
  | .hexStr s => hexToInt s
  | .num n => n
  | .bytes bs => bytesToInt bs
  | .big n => n

/-- `SecretIdentifier.fromSecret` scalar handling, for contrast: reduce mod `n`
and reject zero (`src/crypto/identifier.ts`). -/
def SecretIdentifier.fromSecretScalar (d : ℕ) : Option ℕ :=
  if d % secpN = 0 then none else some (d % secpN)

/-- The three skip-guards of `Kaspeak.processTransactions` that run before the
dedup step and the payload parse: odd hex length, `payload.length <
HEADER_SIZE` (the source compares the HEX-STRING length against the 143-BYTE
header constant), and the `"4b53504b"` marker check.  Returns `true` when the
transaction survives all three guards and reaches `knownTxIds.tryAdd` and
`parsePayload`. -/
def Kaspeak.passesPrefilter (payloadHex : List Char) : Bool :=
  decide (payloadHex.length % 2 ≠ 1) &&
  decide (¬ payloadHex.length < HEADER_SIZE) &&
  (payloadHex.take 8 == ('4' :: 'b' :: '5' :: '3' :: '5' :: '0' :: '4' :: 'b' :: []))

/-! ## Windowed modular exponentiation (`powModW4` in `src/crypto/utils.ts`)

The source walks the binary expansion of the exponent most-significant bit
first: a first chunk of `bits.length % 4` bits (4 if that is 0), then 4-bit
chunks.  The embedding materialises the bit string (`natBits`), the first
chunk, and the remaining chunks (`chunk4`), and `w4loop` performs the
square-four-times-then-multiply step per chunk exactly as the source loop. -/

/-- Fuelled binary expansion, most significant bit first (`n.toString(2)`). -/
def natBitsAux : ℕ → ℕ → List Bool
  | 0, _ => []
  | fuel + 1, n => if n = 0 then [] else natBitsAux fuel (n / 2) ++ [n % 2 == 1]

def natBits (n : ℕ) : List Bool := natBitsAux n n

/-- Value of a most-significant-first bit string continuing from accumulator `v`
(`parseInt(bits, 2)` when `v = 0`). -/
def bitsValFrom (v : ℕ) (l : List Bool) : ℕ :=
  l.foldl (fun a b => 2 * a + (if b then 1 else 0)) v

/-- The precomputed table `tbl[0] = 1`, `tbl[1] = base % m`,
`tbl[i] = tbl[i-1] * tbl[1] % m`. -/
def w4tbl (base m : ℕ) : ℕ → ℕ
  | 0 => 1
  | 1 => base % m
  | j + 2 => w4tbl base m (j + 1) * (base % m) % m

/-- Split a bit string whose length is a multiple of 4 into 4-bit chunk values. -/
def chunk4 : List Bool → List ℕ
  | b1 :: b2 :: b3 :: b4 :: rest =>
      (8 * (if b1 then 1 else 0) + 4 * (if b2 then 1 else 0) +
       2 * (if b3 then 1 else 0) + (if b4 then 1 else 0)) :: chunk4 rest
  | _ => []

/-- The main loop of `powModW4`: per 4-bit chunk, square four times then
multiply by the table entry unless the chunk is zero. -/
def w4loop (m base : ℕ) : ℕ → List ℕ → ℕ
  | acc, [] => acc
  | acc, c :: rest =>
      let r1 := acc * acc % m
      let r2 := r1 * r1 % m
      let r3 := r2 * r2 % m
      let r4 := r3 * r3 % m
      w4loop m base (if c = 0 then r4 else r4 * w4tbl base m c % m) rest

/-- `powModW4(base, exponent, modulus)`: 4-bit windowed modular exponentiation;
returns 1 immediately for exponent 0. -/
def powModW4 (base e m : ℕ) : ℕ :=
  if e = 0 then 1
  else
    let bits := natBits e
    let first := if bits.length % 4 = 0 then 4 else bits.length % 4
    w4loop m base (w4tbl base m (bitsValFrom 0 (bits.take first))) (chunk4 (bits.drop first))

/-! ## Modular inverse via Lehmer's extended gcd (`src/crypto/utils.ts`)

`egcdLehmer` is the source's accelerated extended Euclid: while the second
argument has 31 bits or more, a double-precision Lehmer step condenses several
quotient steps into a 2×2 matrix; afterwards a plain extended-Euclid loop
finishes.  JS `bigint` division truncates toward zero (`Int.tdiv`), `>>` is an
arithmetic (floor) shift, and `mod` is the source's non-negative remainder.
The unbounded `while` loops carry fuel; `none` covers both the function's
`throw`s and fuel exhaustion (the latter never occurs on the terminating
concrete runs used below). -/

def jsMod (a m : ℤ) : ℤ :=
  let r := a.tmod m
  if 0 ≤ r then r else r + m

def lehmerBASE : ℤ := 1073741824

/-- `b.toString(2).length` for a positive argument. -/
def bitLen (n : ℕ) : ℕ := (natBits n).length

/-- The inner quotient-agreement loop of the Lehmer step.  State
`(ah, bh, A, B, C, D)`; returns the final coefficient matrix. -/
def lehmerInner : ℕ → ℤ → ℤ → ℤ → ℤ → ℤ → ℤ → ℤ × ℤ × ℤ × ℤ
  | 0, _, _, A, B, C, D => (A, B, C, D)
  | fuel + 1, ah, bh, A, B, C, D =>
    if bh + C = 0 ∨ bh + D = 0 then (A, B, C, D)
    else
      let q := (ah + A).tdiv (bh + C)
      let q2 := (ah + B).tdiv (bh + D)
      if q ≠ q2 then (A, B, C, D)
      else lehmerInner fuel bh (ah - q * bh) C D (A - q * C) (B - q * D)

/-- The outer loop of `egcdLehmer` up to its `break` (when `b` drops below
`2^30` or reaches 0).  State `(a, b, x, y, u, v)`. -/
def lehmerOuter : ℕ → ℤ → ℤ → ℤ → ℤ → ℤ → ℤ → Option (ℤ × ℤ × ℤ × ℤ × ℤ × ℤ)
  | 0, _, _, _, _, _, _ => none
  | fuel + 1, a, b, x, y, u, v =>
    if b = 0 then some (a, b, x, y, u, v)
    else if b < lehmerBASE then some (a, b, x, y, u, v)
    else
      let n := bitLen b.toNat - 30
      let ah := a.fdiv (2 ^ n)
      let bh := b.fdiv (2 ^ n)
      match lehmerInner 64 ah bh 1 0 0 1 with
      | (A, B, C, D) =>
        if B = 0 then
          let q := a.tdiv b
          lehmerOuter fuel b (a - q * b) u v (x - q * u) (y - q * v)
        else
          lehmerOuter fuel (A * a + B * b) (C * a + D * b)
            (A * x + B * u) (A * y + B * v) (C * x + D * u) (C * y + D * v)

/-- The plain extended-Euclid tail loop; returns `(g, x, y)`. -/
def egcdPlain : ℕ → ℤ → ℤ → ℤ → ℤ → ℤ → ℤ → Option (ℤ × ℤ × ℤ)
  | 0, _, _, _, _, _, _ => none
  | fuel + 1, a, b, x, y, u, v =>
    if b = 0 then some (a, x, y)
    else
      let q := a.tdiv b
      egcdPlain fuel b (a - q * b) u v (x - q * u) (y - q * v)

/-- `egcdLehmer(a, b)`: requires positive arguments (else the source throws). -/
def egcdLehmer (fuel : ℕ) (a b : ℤ) : Option (ℤ × ℤ × ℤ) :=
  if a ≤ 0 ∨ b ≤ 0 then none
  else
    match lehmerOuter fuel a b 1 0 0 1 with
    | none => none
    | some (a2, b2, x2, y2, u2, v2) => egcdPlain fuel a2 b2 x2 y2 u2 v2

/-- `modInv(a, n)`: run the extended gcd on `(mod(a, n), n)` and normalise; the
source throws (here: `none`) when the gcd is neither `1` nor `-1`. -/
def modInv (a n : ℤ) : Option ℤ :=
  match egcdLehmer 1000 (jsMod a n) n with
  | none => none
  | some (g, x, _) =>
    if g = 1 then some (jsMod x n)
    else if g = -1 then some (jsMod (-x) n)
    else none

/-! ## Identifier chain moves (`src/crypto/identifier.ts`)

The curve point type, the point at infinity, the external scalar
multiplication of the `@noble/secp256k1` dependency, and the compressed point
codec (`Point.toCompressed` / `Point.fromBytes`) are parameters of the
embedding: the repository's own contribution — the `powModW4` exponent
bookkeeping, the `modInv` inverse step, and the index arithmetic — is
embedded from source.  An `Identifier` is represented by its 33-byte
encoding, and identifier equality is equality of these encodings, as in the
source (`equals` compares the hex forms). -/

section IdentifierChain

variable {Pt : Type} [DecidableEq Pt]

/-- `Secp256k1.mul(p, priv)`: reduce the scalar mod `N`; infinity in or a zero
reduced scalar yields infinity; otherwise defer to the external curve
multiplication `mulFn` with the reduced scalar. -/
def secpMul (inf : Pt) (mulFn : Pt → ℕ → Pt) (p : Pt) (a : ℕ) : Pt :=
  if p = inf ∨ a % secpN = 0 then inf else mulFn p (a % secpN)

/-- `Identifier.fromChainKey(chainKey, index, PK)`: reject `index < 1`, then
encode `PK · (chainKey^index mod n)`. -/
def Identifier.fromChainKey (inf : Pt) (mulFn : Pt → ℕ → Pt) (enc : Pt → List ℕ)
    (k i : ℕ) (PK : Pt) : Except String (List ℕ) :=
  if i < 1 then .error "index must be at least 1"
  else .ok (enc (secpMul inf mulFn PK (powModW4 k i secpN)))

/-- The encoding produced by a successful `fromChainKey`. -/
def chainId (inf : Pt) (mulFn : Pt → ℕ → Pt) (enc : Pt → List ℕ)
    (k i : ℕ) (PK : Pt) : List ℕ :=
  enc (secpMul inf mulFn PK (powModW4 k i secpN))

/-- `Identifier.next(chainKey)` with the default `count = 1`: the step scalar
is the raw chain key (reduced inside `Secp256k1.mul`). -/
def Identifier.next (inf : Pt) (mulFn : Pt → ℕ → Pt) (enc : Pt → List ℕ)
    (dec : List ℕ → Pt) (idBytes : List ℕ) (k : ℕ) : List ℕ :=
  enc (secpMul inf mulFn (dec idBytes) k)

/-- `Identifier.prev(chainKey)` with the default `count = 1`: the step scalar
is `modInv(chainKey, N)` (a non-negative value, hence the `toNat`). -/
def Identifier.prev (inf : Pt) (mulFn : Pt → ℕ → Pt) (enc : Pt → List ℕ)
    (dec : List ℕ → Pt) (idBytes : List ℕ) (k : ℕ) : Option (List ℕ) :=
  match modInv (k : ℤ) (secpN : ℤ) with
  | none => none
  | some z => some (enc (secpMul inf mulFn (dec idBytes) z.toNat))

end IdentifierChain

/-! ## Concrete inputs used by the counterexamples and witnesses -/

/-- A well-formed payload with application tag `"TEST"` and `type = 1`
(the specification's scenario S1 shape). -/
def examplePayloadS1 : Payload :=
  { marker := MARKER, version := PROTOCOL_VERSION, pfx := [84, 69, 83, 84], type := 1,
    id := 2 :: (List.replicate 31 0 ++ [1]), publicKey := 2 :: List.replicate 32 7,
    signature := List.replicate 64 0, data := [0xde, 0xad, 0xbe, 0xef] }

/-- A 100-byte marker-led transaction payload (200 hex characters). -/
def exampleBytesC2 : List ℕ := MARKER ++ List.replicate 96 0

def exampleHexC2 : List Char := bytesToHex exampleBytesC2

/-- A 143-byte frame with valid marker, version and `dataLen = 0`, whose
identifier byte (offset 11) and public-key byte (offset 44) are both `0x00`. -/
def exampleBytesC3 : List ℕ := MARKER ++ 1 :: List.replicate 138 0

/-- A payload whose tag field has an interior NUL: bytes `41 00 42 00`. -/
def examplePayloadC9 : Payload :=
  { marker := MARKER, version := PROTOCOL_VERSION, pfx := [65, 0, 66, 0], type := 1,
    id := 2 :: (List.replicate 31 0 ++ [1]), publicKey := 2 :: List.replicate 32 7,
    signature := List.replicate 64 0, data := [] }

/-- A well-formed payload carrying a non-zero 64-byte signature, as a payload
looks after `sign()` or after parsing a signed frame. -/
def examplePayloadSigned : Payload :=
  { marker := MARKER, version := PROTOCOL_VERSION, pfx := [84, 69, 83, 84], type := 1,
    id := 2 :: (List.replicate 31 0 ++ [1]), publicKey := 2 :: List.replicate 32 7,
    signature := List.replicate 64 5, data := [0xde, 0xad] }

/-- A concrete model of the external curve layer used to instantiate the
identifier-chain theorem: points are residues mod `N`, the point at infinity
is `0`, scalar multiplication is ring multiplication, and the codec stores the
canonical representative. -/
def zmodMul (q : ZMod secpN) (a : ℕ) : ZMod secpN := q * (a : ZMod secpN)

def zmodEnc (q : ZMod secpN) : List ℕ := [q.val]

def zmodDec (l : List ℕ) : ZMod secpN := ((l.headI : ℕ) : ZMod secpN)

/-- `modInv(2, N) = (N + 1) / 2`, the scalar inverse of the chain key 2. -/
def secpNhalf : ℤ := 57896044618658097711785492504343953926418782139537452191302581570759080747169

/-- A decode environment whose AEAD open step reports a missing plaintext. -/
def exampleDecodeEnv : DecodeEnv Bool :=
  { requiresEncryption := true, openResult := .ok none,
    decompress := fun l => .ok l, cbor := fun _ => .error "CBOR decode failed",
    hydrate := fun _ => .ok () }

/-! # Theorems -/

/-! ## Generic helper lemmas -/

theorem hexCharVal_hexDigitChar (n : ℕ) (h : n < 16) : hexCharVal (hexDigitChar n) = n := by
  interval_cases n <;> decide

theorem foldl_hexstep_byte (acc b : ℕ) (h : b < 256) :
    List.foldl (fun a c => 16 * a + hexCharVal c) acc (byteToHex b) = 256 * acc + b := by
  unfold byteToHex
  simp only [List.foldl_cons, List.foldl_nil]
  rw [hexCharVal_hexDigitChar (b / 16) (by omega), hexCharVal_hexDigitChar (b % 16) (by omega)]
  omega

theorem bytesToHex_foldl (bs : List ℕ) (h : ∀ b ∈ bs, b < 256) (acc : ℕ) :
    List.foldl (fun a c => 16 * a + hexCharVal c) acc (bytesToHex bs)
      = bs.foldl (fun a b => 256 * a + b) acc := by
  induction bs generalizing acc with
  | nil => simp [bytesToHex]
  | cons b t ih =>
    have hb : b < 256 := h b (by simp)
    have ht : ∀ x ∈ t, x < 256 := fun x hx => h x (by simp [hx])
    simp only [bytesToHex, List.flatMap_cons, List.foldl_append, List.foldl_cons]
    rw [show (byteToHex b).foldl (fun a c => 16 * a + hexCharVal c) acc = 256 * acc + b from
      foldl_hexstep_byte acc b hb]
    exact ih ht (256 * acc + b)

theorem bytesToInt_eq_foldl (bs : List ℕ) (h : ∀ b ∈ bs, b < 256) :
    bytesToInt bs = bs.foldl (fun a b => 256 * a + b) 0 := by
  unfold bytesToInt hexToInt
  exact bytesToHex_foldl bs h 0

/-! ## C9 — prefix extraction -/

/-- Claim C9 as stated is false: on the tag bytes `41 00 42 00` the source's
`getPrefix` yields `AB` (every NUL removed) while trailing-only trimming
would preserve the interior NUL and yield `A\x00B`. -/
theorem C9_counterexample :
    Payload.getPfx examplePayloadC9 ≠ Payload.getPfxClaim examplePayloadC9 := by
  decide

/-- Claim C9, amended: the extracted prefix removes every `0x00` byte of the
4-byte tag field, wherever it occurs; it agrees with trailing-only trimming
exactly when no `0x00` byte survives the trimming, i.e. when every NUL in the
field is trailing. -/
theorem C9_getPfx_removes_all_nuls (p : Payload) :
    Payload.getPfx p = Payload.getPfxClaim p ↔ ∀ b ∈ trimTrailingZeros p.pfx, b ≠ 0 := by
  unfold Payload.getPfx Payload.getPfxClaim trimTrailingZeros
  have h1 : p.pfx.filter (fun b => b != 0)
      = ((p.pfx.reverse.dropWhile (fun b => b == 0)).filter (fun b => b != 0)).reverse := by
    have hsplit : p.pfx.reverse
        = p.pfx.reverse.takeWhile (fun b => b == 0)
          ++ p.pfx.reverse.dropWhile (fun b => b == 0) :=
      (List.takeWhile_append_dropWhile (p := fun b => b == 0) (l := p.pfx.reverse)).symm
    have htake : (p.pfx.reverse.takeWhile (fun b => b == 0)).filter (fun b => b != 0) = [] := by
      refine List.filter_eq_nil_iff.mpr (fun a ha => ?_)
      have := List.mem_takeWhile_imp ha
      simp only [beq_iff_eq] at this
      simp [this]
    calc p.pfx.filter (fun b => b != 0)
        = (p.pfx.reverse.filter (fun b => b != 0)).reverse := by
          rw [List.filter_reverse, List.reverse_reverse]
      _ = ((p.pfx.reverse.takeWhile (fun b => b == 0)
            ++ p.pfx.reverse.dropWhile (fun b => b == 0)).filter (fun b => b != 0)).reverse := by
          rw [← hsplit]
      _ = ((p.pfx.reverse.dropWhile (fun b => b == 0)).filter (fun b => b != 0)).reverse := by
          rw [List.filter_append, htake, List.nil_append]
  rw [h1]
  rw [List.reverse_inj]
  rw [List.filter_eq_self]
  constructor
  · intro h b hb
    have := h b (by simpa using hb)
    simpa using this
  · intro h a ha
    have := h a (by simpa using ha)
    simpa using this

/-! ## C4 — private-key intake of `Kaspeak.create` -/

/-- Claim C4 as stated is false: `Kaspeak.create` performs no reduction mod `n`
and no zero rejection.  32 zero bytes are accepted and stored as the scalar 0,
and a bigint above `n` is stored unreduced. -/
theorem C4_counterexample :
    Kaspeak.storedPrivateKey (.bytes (List.replicate 32 0)) = 0 ∧
    Kaspeak.storedPrivateKey (.big (secpN + 5)) = secpN + 5 ∧
    ¬ (1 ≤ Kaspeak.storedPrivateKey (.bytes (List.replicate 32 0))) ∧
    secpN - 1 < Kaspeak.storedPrivateKey (.big (secpN + 5)) := by
  refine ⟨by decide, rfl, by decide, by decide⟩

/-- Claim C4, amended: `Kaspeak.create` stores the private-key input converted
to a bigint verbatim — big-endian byte interpretation for byte arrays, hex
parsing for strings, the numeric value for numbers and bigints — with no
reduction mod `n` and no zero rejection (that normalisation exists only in
`SecretIdentifier.fromSecret`). -/
theorem C4_create_no_normalisation :
    (∀ bs : List ℕ, (∀ b ∈ bs, b < 256) →
        Kaspeak.storedPrivateKey (.bytes bs) = bs.foldl (fun a b => 256 * a + b) 0) ∧
    (∀ n : ℕ, Kaspeak.storedPrivateKey (.num n) = n) ∧
    (∀ n : ℕ, Kaspeak.storedPrivateKey (.big n) = n) ∧
    (∀ s : List Char, Kaspeak.storedPrivateKey (.hexStr s) = hexToInt s) := by
  refine ⟨fun bs h => ?_, fun n => rfl, fun n => rfl, fun s => rfl⟩
  exact bytesToInt_eq_foldl bs h

theorem C4_witness : Kaspeak.storedPrivateKey (.bytes [1, 0]) = 256 :=
  (C4_create_no_normalisation.1 [1, 0] (by decide)).trans (by decide)

/-! ## C2 — ingestion length guard -/

set_option maxRecDepth 10000 in
/-- Claim C2 evaluated at the failing input: a 100-byte (200 hex character),
marker-led transaction payload is below the 143-byte header size, yet it
passes every pre-parse guard of `processTransactions` (the source compares the
hex-string length, 200, against the byte constant `HEADER_SIZE = 143`), so it
reaches the dedup `tryAdd` and the parser, where `fromBytes` then fails. -/
theorem C2_prefilter_unit_bug :
    Kaspeak.passesPrefilter exampleHexC2 = true ∧
    exampleBytesC2.length = 100 ∧
    exampleBytesC2.length < HEADER_SIZE ∧
    exampleHexC2.length = 200 ∧
    (Payload.fromBytes exampleBytesC2).isOk = false := by
  refine ⟨by decide, by decide, by decide, by decide, by decide⟩

/-! ## C7 — decode pipeline error boundaries -/

/-- Claim C7: whenever a key is supplied for encrypted message types, `decode`
never surfaces a pipeline failure as an exception; it returns an
`UnknownMessage`-style value with code 0 (AEAD open returned no plaintext), 1
(empty plaintext), 2 (decryption threw), 3 (decompression failed), 4 (CBOR
decoding failed) or 5 (hydration failed), and the hydrated instance on full
success — exactly the outcome described by `decodeClaim`. -/
theorem C7_decode_never_throws {Obj : Type} (env : DecodeEnv Obj) (data : List ℕ)
    (hasKey : Bool) (h : env.requiresEncryption = true → hasKey = true) :
    MessageSerializer.decode env data hasKey = .ok (decodeClaim env data hasKey) := by
  have hguard : (env.requiresEncryption && !hasKey) = false := by
    cases henc : env.requiresEncryption
    · simp
    · simp [h henc]
  unfold MessageSerializer.decode decodeClaim
  rw [hguard]
  simp only [Bool.false_eq_true, if_false]
  split
  · rfl
  · split
    · rfl
    · split
      · rfl
      · split <;> rfl

theorem C7_witness :
    MessageSerializer.decode exampleDecodeEnv [1] true = .ok (decodeClaim exampleDecodeEnv [1] true) ∧
    decodeClaim exampleDecodeEnv [1] true = .unknown [1] 0 :=
  ⟨C7_decode_never_throws exampleDecodeEnv [1] true (fun _ => rfl), by decide⟩

/-! ## C3 — parse-failure conditions of `Payload.fromBytes` -/

theorem byte_getD_lt (bs : List ℕ) (h : ∀ b ∈ bs, b < 256) (i : ℕ) (hi : i < bs.length) :
    bs.getD i 0 < 256 := by
  rw [List.getD_eq_getElem?_getD, List.getElem?_eq_getElem hi]
  exact h _ (List.getElem_mem hi)

set_option maxRecDepth 10000 in
/-- Claim C3 as stated is false: a 143-byte frame with a valid marker, version
byte 1 and `dataLen = 0` parses successfully even though its identifier byte
(offset 11) and its public-key byte (offset 44) are `0x00`, outside
`{0x02, 0x03}` — `fromBytes` checks neither leading byte. -/
theorem C3_counterexample :
    (Payload.fromBytes exampleBytesC3).isOk = true ∧
    exampleBytesC3.getD 11 0 = 0 ∧ exampleBytesC3.getD 44 0 = 0 ∧
    exampleBytesC3.length = 143 := by
  refine ⟨by decide, by decide, by decide, by decide⟩

/-- Claim C3, amended: for byte-valued input, `Payload.fromBytes` fails exactly
when the length is below 143, the first 4 bytes differ from the `KSPK` marker,
the version byte is not 1, or fewer than `dataLen` bytes follow the header; no
constraint is placed on `publicKey[0]`, on `id[0]`, or on anything else. -/
theorem C3_fromBytes_ok_iff (bs : List ℕ) (hb : ∀ b ∈ bs, b < 256) :
    (Payload.fromBytes bs).isOk = true ↔
      (HEADER_SIZE ≤ bs.length ∧ bs.take 4 = MARKER ∧ bs.getD 4 0 = PROTOCOL_VERSION ∧
        HEADER_SIZE + readU16 bs 141 ≤ bs.length) := by
  unfold Payload.fromBytes
  by_cases h1 : bs.length < HEADER_SIZE
  · rw [if_pos h1]
    exact iff_of_false (by simp [Except.isOk, Except.toBool]) (by unfold HEADER_SIZE at *; omega)
  · rw [if_neg h1]
    by_cases h2 : bs.take 4 = MARKER
    · rw [if_neg (by simpa using h2)]
      by_cases h3 : bs.getD 4 0 = PROTOCOL_VERSION
      · rw [if_neg (by simpa using h3)]
        have hlen : HEADER_SIZE ≤ bs.length := le_of_not_lt h1
        unfold HEADER_SIZE at hlen
        have hid : ((bs.drop 11).take 33).length = 33 := by
          simp only [List.length_take, List.length_drop]
          omega
        have hpk : ((bs.drop 44).take 33).length = 33 := by
          simp only [List.length_take, List.length_drop]
          omega
        have hty : ¬ 65535 < readU16 bs 9 := by
          have b9 := byte_getD_lt bs hb 9 (by omega)
          have b10 := byte_getD_lt bs hb (9 + 1) (by omega)
          unfold readU16
          omega
        simp only [hid, ne_eq, not_true_eq_false, if_false, if_neg hty,
          if_neg (by simp [hpk] : ¬ ((bs.drop 44).take 33).length ≠ 33)]
        by_cases h4 : ((bs.drop 143).take (readU16 bs 141)).length = readU16 bs 141
        · rw [if_neg (by simpa using h4)]
          refine iff_of_true (by simp [Except.isOk, Except.toBool]) ?_
          refine ⟨by omega, h2, h3, ?_⟩
          simp only [List.length_take, List.length_drop] at h4
          unfold HEADER_SIZE
          omega
        · rw [if_pos (by simpa using h4)]
          refine iff_of_false (by simp [Except.isOk, Except.toBool]) ?_
          rintro ⟨-, -, -, hc⟩
          simp only [List.length_take, List.length_drop] at h4
          unfold HEADER_SIZE at hc
          omega
      · rw [if_pos (by simpa using h3)]
        exact iff_of_false (by simp [Except.isOk, Except.toBool]) (by tauto)
    · rw [if_pos (by simpa using h2)]
      exact iff_of_false (by simp [Except.isOk, Except.toBool]) (by tauto)

set_option maxRecDepth 10000 in
theorem C3_witness :
    (Payload.fromBytes (MARKER ++ 2 :: List.replicate 138 0)).isOk = false :=
  by
    have h := C3_fromBytes_ok_iff (MARKER ++ 2 :: List.replicate 138 0) (by decide)
    rw [show ((Payload.fromBytes (MARKER ++ 2 :: List.replicate 138 0)).isOk = false) ↔
        ¬ ((Payload.fromBytes (MARKER ++ 2 :: List.replicate 138 0)).isOk = true) by
      simp]
    rw [h]
    decide

/-! ## C5 and C10 — frame round-trip and trailing-byte tolerance -/

theorem listSet_zero (l src : List ℕ) : listSet l 0 src = src ++ l.drop src.length := by
  simp [listSet]

theorem listSet_step {pre : List ℕ} {off rest : ℕ} {src : List ℕ}
    (hoff : pre.length = off) :
    listSet (pre ++ List.replicate rest 0) off src
      = (pre ++ src) ++ List.replicate (rest - src.length) 0 := by
  unfold listSet
  rw [List.take_left' hoff]
  rw [show off + src.length = pre.length + src.length by rw [hoff]]
  rw [← List.drop_drop, List.drop_left, List.drop_replicate]

theorem writeU16_length (v : ℕ) : (writeU16 v).length = 2 := rfl

/-- With well-formed field lengths, `toBytes` lays the fields out back to back
at their fixed offsets. -/
theorem toBytes_layout (p : Payload) (hm : p.marker.length = 4) (hp : p.pfx.length = 4)
    (hid : p.id.length = 33) (hpk : p.publicKey.length = 33) (hsig : p.signature.length = 64) :
    p.toBytes = p.marker ++ [p.version % 256] ++ p.pfx ++ writeU16 p.type ++ p.id ++
      p.publicKey ++ p.signature ++ writeU16 (p.data.length % 65536) ++ p.data := by
  unfold Payload.toBytes HEADER_SIZE
  simp only []
  rw [listSet_zero, List.drop_replicate, hm,
    show 143 + p.data.length - 4 = 139 + p.data.length by omega]
  rw [listSet_step hm,
    show 139 + p.data.length - ([p.version % 256] : List ℕ).length = 138 + p.data.length by
      simp only [List.length_cons, List.length_nil]; omega]
  rw [listSet_step (by simp [hm] : (p.marker ++ [p.version % 256]).length = 5),
    show 138 + p.data.length - p.pfx.length = 134 + p.data.length by rw [hp]; omega]
  rw [listSet_step (by simp [hm, hp] : (p.marker ++ [p.version % 256] ++ p.pfx).length = 9),
    show 134 + p.data.length - (writeU16 p.type).length = 132 + p.data.length by
      rw [writeU16_length]; omega]
  rw [listSet_step
      (by simp [hm, hp, writeU16] :
        (p.marker ++ [p.version % 256] ++ p.pfx ++ writeU16 p.type).length = 11),
    hid, show 132 + p.data.length - 33 = 99 + p.data.length by omega]
  rw [listSet_step
      (by simp [hm, hp, hid, writeU16] :
        (p.marker ++ [p.version % 256] ++ p.pfx ++ writeU16 p.type ++ p.id).length = 44),
    hpk, show 99 + p.data.length - 33 = 66 + p.data.length by omega]
  rw [listSet_step
      (by simp [hm, hp, hid, hpk, writeU16] :
        (p.marker ++ [p.version % 256] ++ p.pfx ++ writeU16 p.type ++ p.id ++
          p.publicKey).length = 77),
    hsig, show 66 + p.data.length - 64 = 2 + p.data.length by omega]
  rw [listSet_step
      (by simp [hm, hp, hid, hpk, hsig, writeU16] :
        (p.marker ++ [p.version % 256] ++ p.pfx ++ writeU16 p.type ++ p.id ++
          p.publicKey ++ p.signature).length = 141),
    show 2 + p.data.length - (writeU16 (p.data.length % 65536)).length = p.data.length by
      rw [writeU16_length]; omega]
  rw [listSet_step
      (by simp [hm, hp, hid, hpk, hsig, writeU16] :
        (p.marker ++ [p.version % 256] ++ p.pfx ++ writeU16 p.type ++ p.id ++
          p.publicKey ++ p.signature ++ writeU16 (p.data.length % 65536)).length = 143),
    Nat.sub_self, List.replicate_zero, List.append_nil]

theorem getD_via_drop (l : List ℕ) (n : ℕ) (d : ℕ) : l.getD n d = (l.drop n).getD 0 d := by
  induction n generalizing l with
  | zero => simp
  | succ n ih =>
    cases l with
    | nil => simp
    | cons a t => simp [ih t]

/-- Parsing a laid-out frame (with arbitrary trailing bytes) recovers every
field. -/
theorem fromBytes_layout (pf idb pk sig data extra : List ℕ) (ty dlen : ℕ)
    (hp : pf.length = 4) (hid : idb.length = 33) (hpk : pk.length = 33) (hsig : sig.length = 64)
    (hdl : data.length = dlen) (hty : ty ≤ 65535) (hdlen : dlen ≤ 65535) :
    Payload.fromBytes
      (MARKER ++ [PROTOCOL_VERSION] ++ pf ++ writeU16 ty ++ idb ++ pk ++ sig ++
        writeU16 dlen ++ data ++ extra)
      = .ok { marker := MARKER, version := PROTOCOL_VERSION, pfx := pf, type := ty,
              id := idb, publicKey := pk, signature := sig, data := data } := by
  set L := MARKER ++ [PROTOCOL_VERSION] ++ pf ++ writeU16 ty ++ idb ++ pk ++ sig ++
    writeU16 dlen ++ data ++ extra with hLdef
  have hL : L = MARKER ++ ([PROTOCOL_VERSION] ++ (pf ++ (writeU16 ty ++ (idb ++ (pk ++
      (sig ++ (writeU16 dlen ++ (data ++ extra)))))))) := by
    rw [hLdef]; simp [List.append_assoc]
  have hlen : 143 + dlen + extra.length ≤ L.length := by
    rw [hL]
    simp [MARKER, List.length_append, hp, hid, hpk, hsig, writeU16, hdl.symm]
    omega
  have h4 : L.drop 4 = [PROTOCOL_VERSION] ++ (pf ++ (writeU16 ty ++ (idb ++ (pk ++
      (sig ++ (writeU16 dlen ++ (data ++ extra))))))) := by
    rw [hL]; exact List.drop_left' (by decide)
  have h5 : L.drop 5 = pf ++ (writeU16 ty ++ (idb ++ (pk ++
      (sig ++ (writeU16 dlen ++ (data ++ extra)))))) := by
    rw [show (5 : ℕ) = 4 + 1 from rfl, ← List.drop_drop, h4]
    exact List.drop_left' (by decide)
  have h9 : L.drop 9 = writeU16 ty ++ (idb ++ (pk ++
      (sig ++ (writeU16 dlen ++ (data ++ extra))))) := by
    rw [show (9 : ℕ) = 5 + 4 from rfl, ← List.drop_drop, h5]
    exact List.drop_left' hp
  have h11 : L.drop 11 = idb ++ (pk ++ (sig ++ (writeU16 dlen ++ (data ++ extra)))) := by
    rw [show (11 : ℕ) = 9 + 2 from rfl, ← List.drop_drop, h9]
    exact List.drop_left' (writeU16_length ty)
  have h44 : L.drop 44 = pk ++ (sig ++ (writeU16 dlen ++ (data ++ extra))) := by
    rw [show (44 : ℕ) = 11 + 33 from rfl, ← List.drop_drop, h11]
    exact List.drop_left' hid
  have h77 : L.drop 77 = sig ++ (writeU16 dlen ++ (data ++ extra)) := by
    rw [show (77 : ℕ) = 44 + 33 from rfl, ← List.drop_drop, h44]
    exact List.drop_left' hpk
  have h141 : L.drop 141 = writeU16 dlen ++ (data ++ extra) := by
    rw [show (141 : ℕ) = 77 + 64 from rfl, ← List.drop_drop, h77]
    exact List.drop_left' hsig
  have h143 : L.drop 143 = data ++ extra := by
    rw [show (143 : ℕ) = 141 + 2 from rfl, ← List.drop_drop, h141]
    exact List.drop_left' (writeU16_length dlen)
  have htake4 : L.take 4 = MARKER := by
    rw [hL]; exact List.take_left' (by decide)
  have hgetD4 : L.getD 4 0 = PROTOCOL_VERSION := by
    rw [getD_via_drop, h4]; rfl
  have hty9 : readU16 L 9 = ty := by
    unfold readU16
    rw [getD_via_drop L 9, getD_via_drop L (9 + 1),
      show (9 + 1 : ℕ) = 9 + 1 from rfl, ← List.drop_drop, h9]
    unfold writeU16
    simp only [List.cons_append, List.getD_cons_zero, List.drop_succ_cons, List.drop_zero]
    omega
  have hdl141 : readU16 L 141 = dlen := by
    unfold readU16
    rw [getD_via_drop L 141, getD_via_drop L (141 + 1), ← List.drop_drop, h141]
    unfold writeU16
    simp only [List.cons_append, List.getD_cons_zero, List.drop_succ_cons, List.drop_zero]
    omega
  have hpfx : (L.drop 5).take 4 = pf := by rw [h5]; exact List.take_left' hp
  have hidb : (L.drop 11).take 33 = idb := by rw [h11]; exact List.take_left' hid
  have hpkb : (L.drop 44).take 33 = pk := by rw [h44]; exact List.take_left' hpk
  have hsigb : (L.drop 77).take 64 = sig := by rw [h77]; exact List.take_left' hsig
  have hdata : (L.drop 143).take dlen = data := by rw [h143]; exact List.take_left' hdl
  unfold Payload.fromBytes
  rw [if_neg (by unfold HEADER_SIZE; omega)]
  rw [if_neg (fun hc => hc htake4)]
  rw [if_neg (fun hc => hc hgetD4)]
  simp only [hty9, hdl141, hpfx, hidb, hpkb, hsigb, hdata]
  rw [if_neg (by simp [hid]), if_neg (by simp [hdl]), if_neg (by omega), if_neg (by simp [hpk])]

/-- Claim C5: parsing the serialisation of a freshly constructed payload
yields the payload back field by field, its all-zero 64-byte signature
included. -/
theorem C5_fromBytes_toBytes_roundtrip (pf idb pk data : List ℕ) (ty : ℕ) (p : Payload)
    (hp : pf.length = 4) (hid : idb.length = 33) (hdata : data.length ≤ 65535)
    (hnew : Payload.new pf ty idb pk data = .ok p) :
    Payload.fromBytes p.toBytes = .ok p := by
  unfold Payload.new at hnew
  by_cases h1 : 65535 < ty
  · rw [if_pos h1] at hnew; exact absurd hnew (by simp)
  by_cases h2 : pk.length ≠ 33
  · rw [if_neg h1, if_pos h2] at hnew; exact absurd hnew (by simp)
  rw [if_neg h1, if_neg h2] at hnew
  have hpk : pk.length = 33 := by omega
  cases hnew
  rw [toBytes_layout
    ⟨MARKER, PROTOCOL_VERSION, pf, ty, idb, pk, List.replicate 64 0, data⟩
    rfl hp hid hpk rfl]
  have hmod : data.length % 65536 = data.length := Nat.mod_eq_of_lt (by omega)
  simp only [hmod]
  rw [show (PROTOCOL_VERSION % 256 : ℕ) = PROTOCOL_VERSION from rfl]
  rw [show MARKER ++ [PROTOCOL_VERSION] ++ pf ++ writeU16 ty ++ idb ++ pk ++
      List.replicate 64 0 ++ writeU16 data.length ++ data
    = MARKER ++ [PROTOCOL_VERSION] ++ pf ++ writeU16 ty ++ idb ++ pk ++
      List.replicate 64 0 ++ writeU16 data.length ++ data ++ [] by simp]
  exact fromBytes_layout pf idb pk (List.replicate 64 0) data [] ty data.length
    hp hid hpk (by simp) rfl (by omega) (by omega)

set_option maxRecDepth 10000 in
theorem C5_witness :
    Payload.fromBytes (Payload.toBytes examplePayloadS1) = .ok examplePayloadS1 :=
  C5_fromBytes_toBytes_roundtrip [84, 69, 83, 84] (2 :: (List.replicate 31 0 ++ [1]))
    (2 :: List.replicate 32 7) [0xde, 0xad, 0xbe, 0xef] 1 examplePayloadS1
    (by decide) (by decide) (by decide) (by decide)

/-- Claim C10: for every payload whose fields have the on-wire shapes — the
`KSPK` marker, version 1, 4-byte tag, 33-byte id and public key, any 64-byte
signature (zero or set by `sign()`/parsing), `type ≤ 65535` and
`data.length ≤ 65535` — bytes appended after the frame (beyond offset
`143 + dataLen`) are silently ignored: parsing still succeeds and yields the
same payload as parsing the exact serialisation. -/
theorem C10_trailing_bytes_ignored (p : Payload) (s : List ℕ)
    (hm : p.marker = MARKER) (hv : p.version = PROTOCOL_VERSION)
    (hp : p.pfx.length = 4) (hid : p.id.length = 33) (hpk : p.publicKey.length = 33)
    (hsig : p.signature.length = 64) (hty : p.type ≤ 65535) (hdata : p.data.length ≤ 65535)
    (hs : s ≠ []) :
    Payload.fromBytes (p.toBytes ++ s) = .ok p ∧
      Payload.fromBytes (p.toBytes ++ s) = Payload.fromBytes p.toBytes := by
  have hm4 : p.marker.length = 4 := by rw [hm]; rfl
  rw [toBytes_layout p hm4 hp hid hpk hsig]
  have hmod : p.data.length % 65536 = p.data.length := Nat.mod_eq_of_lt (by omega)
  rw [hmod, hm, hv]
  rw [show (PROTOCOL_VERSION % 256 : ℕ) = PROTOCOL_VERSION from rfl]
  have hpe : (⟨MARKER, PROTOCOL_VERSION, p.pfx, p.type, p.id, p.publicKey, p.signature,
      p.data⟩ : Payload) = p := by
    rw [← hm, ← hv]
  have hwith : Payload.fromBytes (MARKER ++ [PROTOCOL_VERSION] ++ p.pfx ++ writeU16 p.type ++
      p.id ++ p.publicKey ++ p.signature ++ writeU16 p.data.length ++ p.data ++ s)
      = .ok p := by
    rw [← hpe]
    exact fromBytes_layout p.pfx p.id p.publicKey p.signature p.data s p.type p.data.length
      hp hid hpk hsig rfl (by omega) (by omega)
  have hwithout : Payload.fromBytes (MARKER ++ [PROTOCOL_VERSION] ++ p.pfx ++ writeU16 p.type ++
      p.id ++ p.publicKey ++ p.signature ++ writeU16 p.data.length ++ p.data)
      = .ok p := by
    rw [show MARKER ++ [PROTOCOL_VERSION] ++ p.pfx ++ writeU16 p.type ++ p.id ++ p.publicKey ++
        p.signature ++ writeU16 p.data.length ++ p.data
      = MARKER ++ [PROTOCOL_VERSION] ++ p.pfx ++ writeU16 p.type ++ p.id ++ p.publicKey ++
        p.signature ++ writeU16 p.data.length ++ p.data ++ [] by simp]
    rw [← hpe]
    exact fromBytes_layout p.pfx p.id p.publicKey p.signature p.data [] p.type p.data.length
      hp hid hpk hsig rfl (by omega) (by omega)
  rw [show (MARKER ++ [PROTOCOL_VERSION] ++ p.pfx ++ writeU16 p.type ++ p.id ++ p.publicKey ++
      p.signature ++ writeU16 p.data.length ++ p.data) ++ s
    = MARKER ++ [PROTOCOL_VERSION] ++ p.pfx ++ writeU16 p.type ++ p.id ++ p.publicKey ++
      p.signature ++ writeU16 p.data.length ++ p.data ++ s from rfl]
  exact ⟨hwith, hwith.trans hwithout.symm⟩

set_option maxRecDepth 10000 in
theorem C10_witness :
    Payload.fromBytes (Payload.toBytes examplePayloadSigned ++ [9, 9])
        = .ok examplePayloadSigned ∧
      Payload.fromBytes (Payload.toBytes examplePayloadSigned ++ [9, 9])
        = Payload.fromBytes (Payload.toBytes examplePayloadSigned) :=
  C10_trailing_bytes_ignored examplePayloadSigned [9, 9] rfl rfl (by decide) (by decide)
    (by decide) (by decide) (by decide) (by decide) (by decide)

/-! ## C1 — canonical signature preimage -/

theorem natHexAux_zero (fuel : ℕ) : natHexAux fuel 0 = [] := by
  cases fuel <;> simp [natHexAux]

theorem natHexAux_digit (fuel j : ℕ) (h1 : 1 ≤ j) (h2 : j < 16) (hf : 1 ≤ fuel) :
    natHexAux fuel j = [hexDigitChar j] := by
  obtain ⟨f, rfl⟩ : ∃ f, fuel = f + 1 := ⟨fuel - 1, by omega⟩
  unfold natHexAux
  rw [if_neg (by omega), show j / 16 = 0 by omega, natHexAux_zero, show j % 16 = j by omega]
  simp

theorem natHexAux_two (fuel j : ℕ) (h1 : 16 ≤ j) (h2 : j < 256) (hf : 2 ≤ fuel) :
    natHexAux fuel j = [hexDigitChar (j / 16), hexDigitChar (j % 16)] := by
  obtain ⟨f, rfl⟩ : ∃ f, fuel = f + 1 := ⟨fuel - 1, by omega⟩
  unfold natHexAux
  rw [if_neg (by omega), natHexAux_digit f (j / 16) (by omega) (by omega) (by omega)]
  simp

theorem natHexAux_three (fuel j : ℕ) (h1 : 256 ≤ j) (h2 : j < 4096) (hf : 3 ≤ fuel) :
    natHexAux fuel j
      = [hexDigitChar (j / 256), hexDigitChar (j / 16 % 16), hexDigitChar (j % 16)] := by
  obtain ⟨f, rfl⟩ : ∃ f, fuel = f + 1 := ⟨fuel - 1, by omega⟩
  unfold natHexAux
  rw [if_neg (by omega), natHexAux_two f (j / 16) (by omega) (by omega) (by omega)]
  rw [show j / 16 / 16 = j / 256 by rw [Nat.div_div_eq_div_mul]]
  simp

theorem natHexAux_four (fuel j : ℕ) (h1 : 4096 ≤ j) (h2 : j < 65536) (hf : 4 ≤ fuel) :
    natHexAux fuel j
      = [hexDigitChar (j / 4096), hexDigitChar (j / 256 % 16), hexDigitChar (j / 16 % 16),
         hexDigitChar (j % 16)] := by
  obtain ⟨f, rfl⟩ : ∃ f, fuel = f + 1 := ⟨fuel - 1, by omega⟩
  unfold natHexAux
  rw [if_neg (by omega), natHexAux_three f (j / 16) (by omega) (by omega) (by omega)]
  rw [show j / 16 / 256 = j / 4096 by rw [Nat.div_div_eq_div_mul]]
  rw [show j / 16 / 16 = j / 256 by rw [Nat.div_div_eq_div_mul]]
  simp

/-- `toString(16).padStart(2, "0")` of a byte is its 2-digit lowercase hex. -/
theorem padStart2_natHex (v : ℕ) (h : v < 256) :
    padStart 2 (hexDigitChar 0) (natHex v) = byteToHex v := by
  unfold natHex byteToHex padStart
  by_cases h0 : v = 0
  · subst h0; simp
  · rw [if_neg h0]
    by_cases hsmall : v < 16
    · rw [natHexAux_digit v v (by omega) hsmall (by omega)]
      rw [show v / 16 = 0 by omega, show v % 16 = v by omega]
      simp [List.replicate]
    · rw [natHexAux_two v v (by omega) h (by omega)]
      simp

/-- `toString(16).padStart(4, "0")` of a 16-bit value is the hex of its two
big-endian bytes. -/
theorem padStart4_natHex (t : ℕ) (h : t < 65536) :
    padStart 4 (hexDigitChar 0) (natHex t) = byteToHex (t / 256) ++ byteToHex (t % 256) := by
  have hA : t % 256 / 16 = t / 16 % 16 := by
    rw [show (256 : ℕ) = 16 * 16 from rfl]
    exact Nat.mod_mul_right_div_self t 16 16
  have hB : t % 256 % 16 = t % 16 := Nat.mod_mod_of_dvd t (by norm_num)
  unfold natHex byteToHex padStart
  by_cases h0 : t = 0
  · subst h0; simp [List.replicate]
  rw [if_neg h0]
  by_cases hc1 : t < 16
  · rw [natHexAux_digit t t (by omega) hc1 (by omega)]
    rw [show t / 256 = 0 by omega, show t % 256 = t by omega,
      show t / 16 = 0 by omega, show t % 16 = t by omega]
    simp [List.replicate]
  by_cases hc2 : t < 256
  · rw [natHexAux_two t t (by omega) hc2 (by omega)]
    rw [show t / 256 = 0 by omega, show t % 256 = t by omega]
    simp [List.replicate]
  by_cases hc3 : t < 4096
  · rw [natHexAux_three t t (by omega) hc3 (by omega)]
    rw [show t / 256 / 16 = 0 by
        rw [Nat.div_div_eq_div_mul]; omega,
      show t / 256 % 16 = t / 256 by omega, hA, hB]
    simp [List.replicate]
  · rw [natHexAux_four t t (by omega) h (by omega)]
    rw [show t / 256 / 16 = t / 4096 by rw [Nat.div_div_eq_div_mul], hA, hB]
    simp [List.replicate]

set_option maxRecDepth 10000 in
/-- Claim C1 as stated is false: with `type = 1` the preimage renders the type
field as `0001` (the number's 4-digit big-endian hex via
`toString(16).padStart(4)`), whereas the claim's 2-byte little-endian encoding
would render `0100`. -/
theorem C1_counterexample :
    Payload.buildMessage examplePayloadS1 [] ≠ Payload.buildMessageClaim examplePayloadS1 [] := by
  decide

/-- Claim C1, amended: the signature preimage is the lowercase hex
concatenation, in this exact order, of marker (4 bytes), version (1 byte),
prefix (4 bytes), type rendered as its two BIG-endian bytes (4 hex digits,
most significant first), id (33 bytes), publicKey (33 bytes), data and
outpointIds, with the signature excluded. -/
theorem C1_preimage_bigendian_type (p : Payload) (outIds : List Char)
    (hv : p.version < 256) (ht : p.type < 65536) :
    p.buildMessage outIds
      = bytesToHex p.marker ++ bytesToHex [p.version] ++ bytesToHex p.pfx ++
        bytesToHex [p.type / 256, p.type % 256] ++ bytesToHex p.id ++
        bytesToHex p.publicKey ++ bytesToHex p.data ++ outIds := by
  unfold Payload.buildMessage
  rw [padStart2_natHex p.version hv, padStart4_natHex p.type ht]
  simp [bytesToHex, List.append_assoc]

theorem C1_witness :
    Payload.buildMessage examplePayloadS1 []
      = bytesToHex examplePayloadS1.marker ++ bytesToHex [examplePayloadS1.version] ++
        bytesToHex examplePayloadS1.pfx ++
        bytesToHex [examplePayloadS1.type / 256, examplePayloadS1.type % 256] ++
        bytesToHex examplePayloadS1.id ++ bytesToHex examplePayloadS1.publicKey ++
        bytesToHex examplePayloadS1.data ++ [] :=
  C1_preimage_bigendian_type examplePayloadS1 [] (by decide) (by decide)

/-! ## C8 — bounded dedup set -/

theorem tryAdd_present {T : Type} [DecidableEq T] [Inhabited T]
    (s : LimitedHashSet T) (cap : ℕ) (v : T) (h : v ∈ s.set) :
    s.tryAdd cap v = (false, s) := by
  unfold LimitedHashSet.tryAdd
  rw [if_pos h]

/-- Claim C8, invariant part: starting from any mirror-consistent state with
room for the ids, folding a nodup stream through `tryAdd` leaves exactly the
last `cap` elements (of queue-plus-stream) in the queue, with the mirror set
still equal to the queue. -/
theorem insertAll_invariant {T : Type} [DecidableEq T] [Inhabited T] (cap : ℕ) (hcap : 1 ≤ cap) :
    ∀ (ids : List T) (st : LimitedHashSet T),
      ids.Nodup → (∀ v ∈ ids, v ∉ st.queue) → st.set = st.queue → st.queue.length ≤ cap →
      (ids.foldl (fun st v => (st.tryAdd cap v).2) st).queue
          = (st.queue ++ ids).drop (st.queue.length + ids.length - cap) ∧
      (ids.foldl (fun st v => (st.tryAdd cap v).2) st).set
          = (ids.foldl (fun st v => (st.tryAdd cap v).2) st).queue := by
  intro ids
  induction ids with
  | nil =>
    intro st _ _ hset hlen
    simp only [List.foldl_nil, List.length_nil, List.append_nil]
    refine ⟨?_, hset⟩
    rw [show st.queue.length + 0 - cap = 0 by omega, List.drop_zero]
  | cons v rest ih =>
    intro st hnd hdisj hset hlen
    have hvq : v ∉ st.queue := hdisj v (by simp)
    have hvs : v ∉ st.set := by rw [hset]; exact hvq
    have hndr : rest.Nodup := (List.nodup_cons.mp hnd).2
    have hvr : v ∉ rest := (List.nodup_cons.mp hnd).1
    have hstep2 : (st.tryAdd cap v).2
        = if st.queue.length = cap
          then (⟨st.queue.tail ++ [v], jsSetAdd (st.set.erase st.queue.headI) v⟩ :
                  LimitedHashSet T)
          else ⟨st.queue ++ [v], jsSetAdd st.set v⟩ := by
      unfold LimitedHashSet.tryAdd
      rw [if_neg hvs]
      by_cases hfull : st.queue.length = cap
      · rw [if_pos hfull, if_pos hfull]
      · rw [if_neg hfull, if_neg hfull]
    simp only [List.foldl_cons]
    rw [hstep2]
    by_cases hfull : st.queue.length = cap
    · rw [if_pos hfull]
      obtain ⟨a, t, hq⟩ : ∃ a t, st.queue = a :: t := by
        cases hq2 : st.queue with
        | nil =>
          rw [hq2] at hfull
          simp at hfull
          omega
        | cons a t => exact ⟨a, t, rfl⟩
      have hhead : st.queue.headI = a := by rw [hq]; rfl
      have htail : st.queue.tail = t := by rw [hq]; rfl
      have hlt : t.length + 1 = cap := by
        rw [hq] at hfull; simpa using hfull
      have herase : st.set.erase st.queue.headI = t := by
        rw [hset, hq]
        exact List.erase_cons_head a t
      have hadd : jsSetAdd (st.set.erase st.queue.headI) v = t ++ [v] := by
        rw [herase]
        unfold jsSetAdd
        rw [if_neg (fun hc => hvq (by rw [hq]; exact List.mem_cons_of_mem a hc))]
      have hstep := ih ⟨st.queue.tail ++ [v], jsSetAdd (st.set.erase st.queue.headI) v⟩
        hndr
        (by
          intro w hw
          simp only [htail, hadd, List.mem_append, List.mem_singleton]
          rintro (hwt | hwv)
          · exact hdisj w (by simp [hw]) (by rw [hq]; exact List.mem_cons_of_mem a hwt)
          · exact hvr (hwv ▸ hw))
        (by simp only [hadd, htail])
        (by simp only [htail, List.length_append, List.length_cons, List.length_nil]; omega)
      refine ⟨?_, hstep.2⟩
      rw [hstep.1, htail, hq]
      rw [show (t ++ [v]) ++ rest = t ++ v :: rest by simp]
      rw [show (a :: t) ++ v :: rest = a :: (t ++ v :: rest) by simp]
      rw [show (t ++ [v]).length + rest.length - cap = rest.length by
        simp only [List.length_append, List.length_cons, List.length_nil]; omega]
      rw [show (a :: t).length + (v :: rest).length - cap = rest.length + 1 by
        simp only [List.length_cons]; omega]
      rw [List.drop_succ_cons]
    · rw [if_neg hfull]
      have haddB : jsSetAdd st.set v = st.queue ++ [v] := by
        unfold jsSetAdd
        rw [if_neg hvs, hset]
      have hstep := ih ⟨st.queue ++ [v], jsSetAdd st.set v⟩
        hndr
        (by
          intro w hw
          simp only [haddB, List.mem_append, List.mem_singleton]
          rintro (hwt | hwv)
          · exact hdisj w (by simp [hw]) hwt
          · exact hvr (hwv ▸ hw))
        (by simp only [haddB])
        (by simp only [List.length_append, List.length_cons, List.length_nil]; omega)
      refine ⟨?_, hstep.2⟩
      rw [hstep.1]
      rw [show (st.queue ++ [v]) ++ rest = st.queue ++ v :: rest by simp]
      rw [show (st.queue ++ [v]).length + rest.length - cap
          = st.queue.length + (v :: rest).length - cap by
        simp only [List.length_append, List.length_cons, List.length_nil]; omega]

/-- Claim C8: the session dedup set has capacity 5000; `tryAdd` returns
`false` and changes nothing when the value is present; and after inserting
`N > 5000` distinct ids the set holds exactly the last 5000 of them. -/
theorem C8_dedup_exact_last_capacity {T : Type} [DecidableEq T] [Inhabited T] (ids : List T)
    (hnd : ids.Nodup) (hlen : knownTxIdsCapacity < ids.length) :
    (LimitedHashSet.insertAll knownTxIdsCapacity ids).queue
        = ids.drop (ids.length - knownTxIdsCapacity) ∧
    (LimitedHashSet.insertAll knownTxIdsCapacity ids).queue.length = knownTxIdsCapacity ∧
    (∀ v : T, (LimitedHashSet.insertAll knownTxIdsCapacity ids).has v = true ↔
        v ∈ ids.drop (ids.length - knownTxIdsCapacity)) ∧
    (∀ (s : LimitedHashSet T) (v : T), v ∈ s.set →
        s.tryAdd knownTxIdsCapacity v = (false, s)) := by
  have hinv := insertAll_invariant knownTxIdsCapacity (by decide) ids LimitedHashSet.empty
    hnd (by intro v hv; simp [LimitedHashSet.empty]) rfl
    (by simp [LimitedHashSet.empty, knownTxIdsCapacity])
  unfold LimitedHashSet.insertAll
  have hq : (ids.foldl (fun st v => (st.tryAdd knownTxIdsCapacity v).2)
      LimitedHashSet.empty).queue = ids.drop (ids.length - knownTxIdsCapacity) := by
    rw [hinv.1]
    simp [LimitedHashSet.empty]
  refine ⟨hq, ?_, ?_, fun s v h => tryAdd_present s knownTxIdsCapacity v h⟩
  · rw [hq, List.length_drop]
    omega
  · intro v
    unfold LimitedHashSet.has
    rw [hinv.2, hq]
    simp

theorem C8_witness :
    (LimitedHashSet.insertAll knownTxIdsCapacity (List.range 5001)).queue
        = (List.range 5001).drop ((List.range 5001).length - knownTxIdsCapacity) ∧
    (LimitedHashSet.insertAll knownTxIdsCapacity (List.range 5001)).queue.length
        = knownTxIdsCapacity ∧
    (∀ v : ℕ, (LimitedHashSet.insertAll knownTxIdsCapacity (List.range 5001)).has v = true ↔
        v ∈ (List.range 5001).drop ((List.range 5001).length - knownTxIdsCapacity)) ∧
    (∀ (s : LimitedHashSet ℕ) (v : ℕ), v ∈ s.set →
        s.tryAdd knownTxIdsCapacity v = (false, s)) :=
  C8_dedup_exact_last_capacity (List.range 5001) (List.nodup_range _)
    (by simp [knownTxIdsCapacity])

/-! ## C6 — identifier chain moves

The windowed exponentiation `powModW4` is proven correct first; the chain
theorem then needs only the contract of the external curve multiplication
(compose, identity, non-degeneracy, codec round-trip), stated as hypotheses
and instantiated concretely in the witness. -/

theorem bitsValFrom_append (v : ℕ) (l1 l2 : List Bool) :
    bitsValFrom v (l1 ++ l2) = bitsValFrom (bitsValFrom v l1) l2 := by
  unfold bitsValFrom
  exact List.foldl_append _ _ _ _

theorem bitsValFrom_general (l : List Bool) : ∀ v : ℕ,
    bitsValFrom v l = v * 2 ^ l.length + bitsValFrom 0 l := by
  induction l with
  | nil => intro v; simp [bitsValFrom]
  | cons b t ih =>
    intro v
    unfold bitsValFrom at *
    simp only [List.foldl_cons, List.length_cons]
    rw [ih (2 * v + if b then 1 else 0), ih (2 * 0 + if b then 1 else 0)]
    ring

theorem natBitsAux_val : ∀ (fuel n : ℕ), n ≤ fuel →
    bitsValFrom 0 (natBitsAux fuel n) = n := by
  intro fuel
  induction fuel with
  | zero =>
    intro n h
    interval_cases n
    simp [natBitsAux, bitsValFrom]
  | succ f ih =>
    intro n h
    unfold natBitsAux
    by_cases h0 : n = 0
    · simp [h0, bitsValFrom]
    · rw [if_neg h0, bitsValFrom_append, ih (n / 2) (by omega)]
      unfold bitsValFrom
      simp only [List.foldl_cons, List.foldl_nil]
      rcases Nat.mod_two_eq_zero_or_one n with hpar | hpar <;> simp [hpar] <;> omega

theorem natBitsAux_nil (fuel : ℕ) : natBitsAux fuel 0 = [] := by
  cases fuel <;> simp [natBitsAux]

theorem natBitsAux_head : ∀ (fuel n : ℕ), 1 ≤ n → n ≤ fuel →
    ∃ t, natBitsAux fuel n = true :: t := by
  intro fuel
  induction fuel with
  | zero => intro n h1 h2; omega
  | succ f ih =>
    intro n h1 h2
    unfold natBitsAux
    rw [if_neg (by omega)]
    by_cases hsmall : n / 2 = 0
    · have hn1 : n = 1 := by omega
      refine ⟨[], ?_⟩
      subst hn1
      rw [hsmall, natBitsAux_nil]
      rfl
    · obtain ⟨t, ht⟩ := ih (n / 2) (by omega) (by omega)
      exact ⟨t ++ [n % 2 == 1], by rw [ht]; rfl⟩

theorem w4tbl_eq (base m : ℕ) : ∀ j, 1 ≤ j → w4tbl base m j = base ^ j % m := by
  intro j
  induction j with
  | zero => omega
  | succ j2 ih =>
    intro _
    match j2, ih with
    | 0, _ => simp [w4tbl]
    | j3 + 1, ih =>
      show w4tbl base m (j3 + 2) = base ^ (j3 + 2) % m
      unfold w4tbl
      rw [ih (by omega)]
      rw [← Nat.mul_mod, ← pow_succ]

theorem w4loop_inv (m base : ℕ) : ∀ (cs : List ℕ) (acc v : ℕ), acc = base ^ v % m →
    w4loop m base acc cs = base ^ (cs.foldl (fun a c => 16 * a + c) v) % m := by
  intro cs
  induction cs with
  | nil => intro acc v h; simpa [w4loop] using h
  | cons c rest ih =>
    intro acc v h
    unfold w4loop
    simp only []
    have hsq : ∀ w : ℕ, (base ^ w % m) * (base ^ w % m) % m = base ^ (2 * w) % m := by
      intro w
      rw [← Nat.mul_mod, ← pow_add, two_mul]
    rw [h, hsq v, hsq (2 * v), hsq (2 * (2 * v)), hsq (2 * (2 * (2 * v))),
      show 2 * (2 * (2 * (2 * v))) = 16 * v by ring]
    by_cases hc : c = 0
    · rw [if_pos hc]
      rw [ih (base ^ (16 * v) % m) (16 * v) rfl]
      subst hc
      simp
    · rw [if_neg hc]
      have hacc : base ^ (16 * v) % m * w4tbl base m c % m = base ^ (16 * v + c) % m := by
        rw [w4tbl_eq base m c (by omega), ← Nat.mul_mod, ← pow_add]
      rw [ih _ (16 * v + c) hacc]
      simp only [List.foldl_cons]

theorem chunk4_foldl : ∀ (s : List Bool), s.length % 4 = 0 → ∀ v : ℕ,
    (chunk4 s).foldl (fun a c => 16 * a + c) v = bitsValFrom v s := by
  intro s
  induction s using chunk4.induct with
  | case1 b1 b2 b3 b4 rest ih =>
    intro hlen v
    unfold chunk4
    simp only [List.foldl_cons]
    rw [ih (by simp at hlen; omega) _]
    unfold bitsValFrom
    simp only [List.foldl_cons]
    congr 1
    cases b1 <;> cases b2 <;> cases b3 <;> cases b4 <;> simp <;> ring
  | case2 s hne =>
    intro hlen v
    match s, hne with
    | [], _ => simp [chunk4, bitsValFrom]
    | [b1], h => simp at hlen
    | [b1, b2], h => simp at hlen
    | [b1, b2, b3], h => simp at hlen
    | b1 :: b2 :: b3 :: b4 :: rest, h => exact absurd rfl (by intro hc; exact h b1 b2 b3 b4 rest hc)

/-- The 4-bit windowed exponentiation of the source computes `base ^ e mod m`
for every positive exponent. -/
theorem powModW4_eq (base e m : ℕ) (he : 1 ≤ e) : powModW4 base e m = base ^ e % m := by
  unfold powModW4 natBits
  rw [if_neg (by omega)]
  simp only []
  set bits := natBitsAux e e with hbits
  set first := if bits.length % 4 = 0 then 4 else bits.length % 4 with hfirst
  obtain ⟨t, ht⟩ := natBitsAux_head e e he le_rfl
  have hlt : bits = true :: t := ht
  have hbne : 1 ≤ bits.length := by rw [hlt]; simp
  have hf1 : 1 ≤ first := by rw [hfirst]; split <;> omega
  have hf4 : first ≤ bits.length := by
    rw [hfirst]
    split
    · omega
    · omega
  have hdroplen : (bits.drop first).length % 4 = 0 := by
    rw [List.length_drop, hfirst]
    split
    · omega
    · omega
  have hv1 : 1 ≤ bitsValFrom 0 (bits.take first) := by
    obtain ⟨f1, hf⟩ : ∃ f1, first = f1 + 1 := ⟨first - 1, by omega⟩
    rw [hlt, hf, List.take_succ_cons]
    have hgen := bitsValFrom_general (t.take f1) 1
    unfold bitsValFrom at hgen ⊢
    simp only [List.foldl_cons]
    norm_num
    rw [hgen]
    have h2 : 1 ≤ 2 ^ (t.take f1).length := Nat.one_le_two_pow
    omega
  rw [w4tbl_eq base m (bitsValFrom 0 (bits.take first)) hv1]
  rw [w4loop_inv m base (chunk4 (bits.drop first)) _ (bitsValFrom 0 (bits.take first)) rfl]
  rw [chunk4_foldl (bits.drop first) hdroplen (bitsValFrom 0 (bits.take first))]
  congr 1
  have hval : bitsValFrom 0 (bits.take first ++ bits.drop first) = e := by
    rw [List.take_append_drop]
    exact natBitsAux_val e e le_rfl
  rw [← hval, bitsValFrom_append]

theorem secpN_two_le : 2 ≤ secpN := by decide

theorem coprime_mod_secpN {a : ℕ} (h : Nat.Coprime a secpN) :
    Nat.Coprime (a % secpN) secpN := by
  unfold Nat.Coprime at *
  rw [← Nat.gcd_rec, Nat.gcd_comm]
  exact h

theorem coprime_mod_ne_zero {a : ℕ} (h : Nat.Coprime a secpN) : a % secpN ≠ 0 := by
  intro hc
  have hdvd : secpN ∣ a := Nat.dvd_of_mod_eq_zero hc
  have h1 : secpN ∣ 1 := by
    rw [← h]
    exact Nat.dvd_gcd hdvd dvd_rfl
  have := Nat.le_of_dvd (by omega) h1
  have := secpN_two_le
  omega

theorem coprime_of_mul_mod_eq_one {a b : ℕ} (h : a * b % secpN = 1) :
    Nat.Coprime (a * b) secpN := by
  have hd1 : Nat.gcd (a * b) secpN ∣ a * b := Nat.gcd_dvd_left _ _
  have hd2 : Nat.gcd (a * b) secpN ∣ secpN := Nat.gcd_dvd_right _ _
  have hd3 : Nat.gcd (a * b) secpN ∣ a * b % secpN := (Nat.dvd_mod_iff hd2).mpr hd1
  rw [h] at hd3
  unfold Nat.Coprime
  exact Nat.dvd_one.mp hd3

theorem secpMul_reduces {Pt : Type} [DecidableEq Pt] (inf : Pt) (mulFn : Pt → ℕ → Pt)
    (Q : Pt) (a : ℕ) (hQ : Q ≠ inf) (ha : Nat.Coprime a secpN) :
    secpMul inf mulFn Q a = mulFn Q (a % secpN) := by
  unfold secpMul
  rw [if_neg]
  push_neg
  exact ⟨hQ, coprime_mod_ne_zero ha⟩

/-- Claim C6: with the external curve multiplication satisfying its contract
(composition of reduced scalars, identity at scalar 1, non-degeneracy on
coprime scalars, codec round-trip), a chain key `k` invertible mod `n`, and a
reference point `PK` distinct from infinity: `fromChainKey(k, i, PK)` succeeds
with the encoding `chainId k i PK`; `next` moves it to `chainId k (i+1) PK`;
for `i ≥ 2`, `prev` moves it to `chainId k (i-1) PK` (using the source's
Lehmer `modInv`, whose output `kinv` satisfies `k · kinv ≡ 1 (mod n)`); and
`prev(next(id)) = id` for every identifier with a stable codec encoding —
all equalities being equalities of the 33-byte encodings. -/
theorem C6_identifier_chain (Pt : Type) [DecidableEq Pt] (inf : Pt)
    (mulFn : Pt → ℕ → Pt) (enc : Pt → List ℕ) (dec : List ℕ → Pt)
    (hone : ∀ Q, mulFn Q 1 = Q)
    (hcomp : ∀ Q a b, mulFn (mulFn Q a) b = mulFn Q (a * b % secpN))
    (hinf : ∀ Q a, Q ≠ inf → Nat.Coprime a secpN → mulFn Q a ≠ inf)
    (hcodec : ∀ Q, dec (enc Q) = Q)
    (k i : ℕ) (PK : Pt) (kinv : ℤ)
    (hk : Nat.Coprime k secpN) (hPK : PK ≠ inf) (hi : 1 ≤ i)
    (hminv : modInv (k : ℤ) (secpN : ℤ) = some kinv)
    (hkinv : k * kinv.toNat % secpN = 1)
    (idBytes : List ℕ) (hidb : enc (dec idBytes) = idBytes) (hidinf : dec idBytes ≠ inf) :
    Identifier.fromChainKey inf mulFn enc k i PK = .ok (chainId inf mulFn enc k i PK) ∧
    Identifier.next inf mulFn enc dec (chainId inf mulFn enc k i PK) k
        = chainId inf mulFn enc k (i + 1) PK ∧
    (2 ≤ i → Identifier.prev inf mulFn enc dec (chainId inf mulFn enc k i PK) k
        = some (chainId inf mulFn enc k (i - 1) PK)) ∧
    Identifier.prev inf mulFn enc dec (Identifier.next inf mulFn enc dec idBytes k) k
        = some idBytes := by
  have hkm : Nat.Coprime (k % secpN) secpN := coprime_mod_secpN hk
  have hkvcop : Nat.Coprime kinv.toNat secpN :=
    Nat.Coprime.coprime_dvd_left (dvd_mul_left kinv.toNat k) (coprime_of_mul_mod_eq_one hkinv)
  have hchain : ∀ j, 1 ≤ j → chainId inf mulFn enc k j PK = enc (mulFn PK (k ^ j % secpN)) := by
    intro j hj
    unfold chainId
    rw [powModW4_eq k j secpN hj]
    rw [secpMul_reduces inf mulFn PK (k ^ j % secpN) hPK
      (coprime_mod_secpN (Nat.Coprime.pow_left j hk))]
    rw [Nat.mod_mod_of_dvd _ dvd_rfl]
  have hXne : ∀ j, 1 ≤ j → mulFn PK (k ^ j % secpN) ≠ inf := fun j hj =>
    hinf PK _ hPK (coprime_mod_secpN (Nat.Coprime.pow_left j hk))
  refine ⟨?_, ?_, ?_, ?_⟩
  · unfold Identifier.fromChainKey chainId
    rw [if_neg (by omega)]
  · unfold Identifier.next
    rw [hchain i hi, hcodec]
    rw [secpMul_reduces inf mulFn _ k (hXne i hi) hk]
    rw [hcomp]
    rw [hchain (i + 1) (by omega)]
    congr 2
    rw [← Nat.mul_mod, ← pow_succ]
  · intro h2
    unfold Identifier.prev
    rw [hminv]
    rw [hchain i hi, hcodec]
    show some (enc (secpMul inf mulFn (mulFn PK (k ^ i % secpN)) kinv.toNat))
      = some (chainId inf mulFn enc k (i - 1) PK)
    rw [secpMul_reduces inf mulFn _ kinv.toNat (hXne i hi) hkvcop]
    rw [hcomp]
    rw [hchain (i - 1) (by omega)]
    congr 3
    rw [← Nat.mul_mod]
    have hsplit : k ^ i = k ^ (i - 1) * k := by
      rw [← pow_succ]
      congr 1
      omega
    rw [hsplit, mul_assoc, Nat.mul_mod, hkinv, mul_one, Nat.mod_mod_of_dvd _ dvd_rfl]
  · unfold Identifier.prev Identifier.next
    rw [hminv]
    show some (enc (secpMul inf mulFn (dec (enc (secpMul inf mulFn (dec idBytes) k)))
      kinv.toNat)) = some idBytes
    rw [secpMul_reduces inf mulFn (dec idBytes) k hidinf hk, hcodec]
    rw [secpMul_reduces inf mulFn _ kinv.toNat (hinf _ _ hidinf hkm) hkvcop]
    rw [hcomp]
    rw [← Nat.mul_mod, hkinv, hone, hidb]

set_option maxRecDepth 100000 in
theorem C6_witness :
    Identifier.fromChainKey (0 : ZMod secpN) zmodMul zmodEnc 2 2 (3 : ZMod secpN)
        = .ok (chainId (0 : ZMod secpN) zmodMul zmodEnc 2 2 (3 : ZMod secpN)) ∧
    Identifier.next (0 : ZMod secpN) zmodMul zmodEnc zmodDec
        (chainId (0 : ZMod secpN) zmodMul zmodEnc 2 2 (3 : ZMod secpN)) 2
        = chainId (0 : ZMod secpN) zmodMul zmodEnc 2 (2 + 1) (3 : ZMod secpN) ∧
    (2 ≤ 2 → Identifier.prev (0 : ZMod secpN) zmodMul zmodEnc zmodDec
        (chainId (0 : ZMod secpN) zmodMul zmodEnc 2 2 (3 : ZMod secpN)) 2
        = some (chainId (0 : ZMod secpN) zmodMul zmodEnc 2 (2 - 1) (3 : ZMod secpN))) ∧
    Identifier.prev (0 : ZMod secpN) zmodMul zmodEnc zmodDec
        (Identifier.next (0 : ZMod secpN) zmodMul zmodEnc zmodDec [3] 2) 2
        = some [3] := by
  haveI : NeZero secpN := ⟨by decide⟩
  have hne3 : ((3 : ℕ) : ZMod secpN) ≠ 0 := by
    intro hc
    have hdvd : secpN ∣ 3 := (ZMod.natCast_zmod_eq_zero_iff_dvd 3 secpN).mp hc
    have h1 := Nat.le_of_dvd (by omega) hdvd
    have h2 : 3 < secpN := by decide
    omega
  refine C6_identifier_chain (ZMod secpN) (0 : ZMod secpN) zmodMul zmodEnc zmodDec
    ?_ ?_ ?_ ?_ 2 2 (3 : ZMod secpN) secpNhalf ?_ ?_ ?_ ?_ ?_ [3] ?_ ?_
  · intro Q
    unfold zmodMul
    simp
  · intro Q a b
    unfold zmodMul
    rw [ZMod.natCast_mod, Nat.cast_mul]
    ring
  · intro Q a hQ ha hc
    unfold zmodMul at hc
    have hu : IsUnit ((a : ℕ) : ZMod secpN) := (ZMod.isUnit_iff_coprime a secpN).mpr ha
    exact hQ ((IsUnit.mul_left_eq_zero hu).mp hc)
  · intro Q
    unfold zmodDec zmodEnc
    simp [ZMod.natCast_zmod_val]
  · decide
  · show (3 : ZMod secpN) ≠ 0
    intro hc
    exact hne3 (by exact_mod_cast hc)
  · decide
  · decide
  · decide
  · unfold zmodEnc zmodDec
    simp only [List.headI]
    rw [ZMod.val_cast_of_lt (by decide)]
  · unfold zmodDec
    simpa using hne3
